import Mathlib

/-!
Verification of the EMA crossover signal engine and the backtest simulator
of `backtest.py` (repository `bot_trade_coinbase`), shallowly embedded over
exact rationals.  Prices, capital amounts and fees are modelled as `ℚ`;
signals and positions as `ℤ` (the code uses the integers 1, -1, 0).
-/

namespace BotTrade

/-- Tail of the recursive "adjust=False" EMA: given the previous EMA value
`prev`, each new close `c` yields `a * c + (1 - a) * prev`
(`ema[i] = α*close[i] + (1-α)*ema[i-1]`). -/
def emaRec (a : ℚ) : ℚ → List ℚ → List ℚ
  | _, [] => []
  | prev, c :: cs =>
    let y := a * c + (1 - a) * prev
    y :: emaRec a y cs

/-- Embedding of `closes.ewm(span=span, adjust=False).mean()`: the smoothing
parameter is `α = 2/(span+1)` and the sequence is seeded with the first
close (`ema[0] = close[0]`). -/
def ewmMean (span : ℕ) (closes : List ℚ) : List ℚ :=
  match closes with
  | [] => []
  | c :: cs => c :: emaRec (2 / ((span : ℚ) + 1)) c cs

/-- Embedding of the pandas masked assignment
`df.loc[cond(emaShort, emaLong), "signal"] = v`: positions of the third list
where `cond` holds of the corresponding elements of the first two lists are
overwritten with `v`. -/
def setWhere (v : ℤ) (cond : ℚ → ℚ → Bool) : List ℚ → List ℚ → List ℤ → List ℤ
  | a :: es, b :: els, x :: xs => (if cond a b then v else x) :: setWhere v cond es els xs
  | _, _, _ => []

/-- The signal column of `calculate_ema_strategy`: start from the all-zero
column (`df["signal"] = 0`), set `1` where `ema_short > ema_long`, then set
`-1` where `ema_short < ema_long`. -/
def calcSignal (ema_short ema_long : List ℚ) : List ℤ :=
  let s0 : List ℤ := List.replicate ema_short.length 0
  let s1 := setWhere 1 (fun a b => decide (b < a)) ema_short ema_long s0
  setWhere (-1) (fun a b => decide (a < b)) ema_short ema_long s1

/-- Embedding of `calculate_ema_strategy(df, short_window, long_window)`
from `backtest.py` (the identical copy in `app.py` differs only in
formatting): returns the `ema_short`, `ema_long` and `signal` columns
computed from the close-price column. -/
def calculate_ema_strategy (closes : List ℚ) (short_window long_window : ℕ) :
    List ℚ × List ℚ × List ℤ :=
  let ema_short := ewmMean short_window closes
  let ema_long := ewmMean long_window closes
  (ema_short, ema_long, calcSignal ema_short ema_long)

lemma ewmMean_sample : ewmMean 3 [4, 8] = [4, 6] := by norm_num [ewmMean, emaRec]

lemma calcSignal_sample : calcSignal [3, 1, 2] [2, 2, 2] = [1, -1, 0] := by
  norm_num [calcSignal, setWhere]

/-- The list `prev :: emaRec a prev cs` satisfies the EMA recursion:
element `i+1` is `a * cs[i] + (1 - a) * (element i)`. -/
lemma emaRec_step (a : ℚ) : ∀ (cs : List ℚ) (prev : ℚ) (i : ℕ) (ci pv : ℚ),
    cs[i]? = some ci → (prev :: emaRec a prev cs)[i]? = some pv →
    (prev :: emaRec a prev cs)[i + 1]? = some (a * ci + (1 - a) * pv)
  | [], _, i, _, _, hc, _ => by simp at hc
  | c :: cs, prev, 0, ci, pv, hc, hp => by
      simp only [List.getElem?_cons_zero, Option.some.injEq] at hc hp
      simp [emaRec, hc, hp]
  | c :: cs, prev, i + 1, ci, pv, hc, hp => by
      have hc' : cs[i]? = some ci := by simpa using hc
      have hp' : ((a * c + (1 - a) * prev) :: emaRec a (a * c + (1 - a) * prev) cs)[i]? =
          some pv := by
        simpa [emaRec] using hp
      have := emaRec_step a cs (a * c + (1 - a) * prev) i ci pv hc' hp'
      simpa [emaRec] using this

/-- `ewmMean` is seeded with the first close. -/
lemma ewmMean_head (span : ℕ) (closes : List ℚ) :
    (ewmMean span closes).head? = closes.head? := by
  cases closes <;> simp [ewmMean]

/-- `ewmMean` satisfies the recursive EMA definition with `α = 2/(span+1)`. -/
lemma ewmMean_step (span : ℕ) (closes : List ℚ) (i : ℕ) (ci pv : ℚ)
    (hc : closes[i + 1]? = some ci) (hp : (ewmMean span closes)[i]? = some pv) :
    (ewmMean span closes)[i + 1]? =
      some (2 / ((span : ℚ) + 1) * ci + (1 - 2 / ((span : ℚ) + 1)) * pv) := by
  match closes with
  | [] => simp at hc
  | c :: cs =>
      have hc' : cs[i]? = some ci := by simpa using hc
      exact emaRec_step _ cs c i ci pv hc' hp

/-- C1: for a non-empty close series and positive windows, both EMA columns
returned by `calculate_ema_strategy` are seeded with `close[0]` and obey
`ema[i+1] = α*close[i+1] + (1-α)*ema[i]` with `α = 2/(window+1)`. -/
theorem ema_recursive_definition (closes : List ℚ) (short_window long_window : ℕ)
    (hsw : 0 < short_window) (hlw : 0 < long_window) (hne : closes ≠ [])
    (i : ℕ) (ci prevS prevL : ℚ)
    (hc : closes[i + 1]? = some ci)
    (hs : (calculate_ema_strategy closes short_window long_window).1[i]? = some prevS)
    (hl : (calculate_ema_strategy closes short_window long_window).2.1[i]? = some prevL) :
    (calculate_ema_strategy closes short_window long_window).1.head? = closes.head? ∧
    (calculate_ema_strategy closes short_window long_window).2.1.head? = closes.head? ∧
    (calculate_ema_strategy closes short_window long_window).1[i + 1]? =
      some (2 / ((short_window : ℚ) + 1) * ci +
        (1 - 2 / ((short_window : ℚ) + 1)) * prevS) ∧
    (calculate_ema_strategy closes short_window long_window).2.1[i + 1]? =
      some (2 / ((long_window : ℚ) + 1) * ci +
        (1 - 2 / ((long_window : ℚ) + 1)) * prevL) := by
  refine ⟨ewmMean_head _ _, ewmMean_head _ _, ?_, ?_⟩
  · exact ewmMean_step short_window closes i ci prevS hc hs
  · exact ewmMean_step long_window closes i ci prevL hc hl

/-- Witness for C1 at `closes = [4, 8]`, `short_window = 1`, `long_window = 3`. -/
theorem ema_recursive_definition_witness :
    0 < 1 ∧ 0 < 3 ∧ ([(4 : ℚ), 8] ≠ []) ∧
    ([(4 : ℚ), 8][1]? = some 8) ∧
    ((calculate_ema_strategy [4, 8] 1 3).1[0]? = some 4) ∧
    ((calculate_ema_strategy [4, 8] 1 3).2.1[0]? = some 4) ∧
    ((calculate_ema_strategy [(4 : ℚ), 8] 1 3).1.head? = [(4 : ℚ), 8].head? ∧
    (calculate_ema_strategy [(4 : ℚ), 8] 1 3).2.1.head? = [(4 : ℚ), 8].head? ∧
    (calculate_ema_strategy [(4 : ℚ), 8] 1 3).1[0 + 1]? =
      some (2 / (((1 : ℕ) : ℚ) + 1) * 8 + (1 - 2 / (((1 : ℕ) : ℚ) + 1)) * 4) ∧
    (calculate_ema_strategy [(4 : ℚ), 8] 1 3).2.1[0 + 1]? =
      some (2 / (((3 : ℕ) : ℚ) + 1) * 8 + (1 - 2 / (((3 : ℕ) : ℚ) + 1)) * 4)) := by
  have hc : ([(4 : ℚ), 8][1]? = some 8) := by simp
  have hs : ((calculate_ema_strategy [(4 : ℚ), 8] 1 3).1[0]? = some 4) := by
    norm_num [calculate_ema_strategy, ewmMean, emaRec]
  have hl : ((calculate_ema_strategy [(4 : ℚ), 8] 1 3).2.1[0]? = some 4) := by
    norm_num [calculate_ema_strategy, ewmMean, emaRec]
  exact ⟨Nat.one_pos, by norm_num, by simp, hc, hs, hl,
    ema_recursive_definition [4, 8] 1 3 Nat.one_pos (by norm_num) (by simp) 0 8 4 4 hc hs hl⟩

/-- Unfolding `calcSignal` on cons cells: the head is the code's nested
conditional and the tail is `calcSignal` of the tails. -/
lemma calcSignal_cons (a b : ℚ) (es els : List ℚ) :
    calcSignal (a :: es) (b :: els) =
      (if a < b then -1 else if b < a then 1 else 0) :: calcSignal es els := by
  simp [calcSignal, setWhere, List.replicate_succ]

/-- C2: the derived signal is a pure pointwise function of the two EMA values
at the same index: `1` if `ema_short > ema_long`, `-1` if `<`, `0` if equal. -/
theorem signal_pointwise : ∀ (es els : List ℚ) (i : ℕ) (a b : ℚ),
    es[i]? = some a → els[i]? = some b →
    (calcSignal es els)[i]? =
      some (if b < a then 1 else if a < b then -1 else 0)
  | [], _, i, _, _, ha, _ => by simp at ha
  | _ :: _, [], i, _, _, _, hb => by simp at hb
  | e :: es, l :: els, 0, a, b, ha, hb => by
      simp only [List.getElem?_cons_zero, Option.some.injEq] at ha hb
      subst ha; subst hb
      rw [calcSignal_cons]
      rcases lt_trichotomy e l with h | h | h
      · simp [h, lt_asymm h]
      · simp [h]
      · simp [h, lt_asymm h]
  | e :: es, l :: els, i + 1, a, b, ha, hb => by
      have ha' : es[i]? = some a := by simpa using ha
      have hb' : els[i]? = some b := by simpa using hb
      rw [calcSignal_cons]
      simpa using signal_pointwise es els i a b ha' hb'

/-- Witness for C2 at `ema_short = [3, 1, 2]`, `ema_long = [2, 2, 2]`, `i = 0`. -/
theorem signal_pointwise_witness :
    ([(3 : ℚ), 1, 2][0]? = some 3) ∧ ([(2 : ℚ), 2, 2][0]? = some 2) ∧
    (calcSignal [3, 1, 2] [2, 2, 2])[0]? =
      some (if (2 : ℚ) < 3 then 1 else if (3 : ℚ) < 2 then -1 else 0) := by
  have ha : ([(3 : ℚ), 1, 2][0]? = some 3) := by simp
  have hb : ([(2 : ℚ), 2, 2][0]? = some 2) := by simp
  exact ⟨ha, hb, signal_pointwise [3, 1, 2] [2, 2, 2] 0 3 2 ha hb⟩

/-! ## The backtest simulator (`backtest_ema` of `backtest.py`)

A data row is the pair `(signal, close)`; `backtest_ema(df, initial_capital,
fee_percent)` walks the rows twice: a first loop (from index 1) maintains
`position`, `entry_price`, `capital`, `shares` and records the `position`
column; after an optional forced liquidation, a second loop (skipping index
0) recomputes the state with `pos`, `entry_p`, `cap_temp`, `sh` and records
the `portfolio_value` column. -/

/-- State of the first loop of `backtest_ema`: the variables `position`,
`entry_price`, `capital`, `shares`. -/
structure BTState where
  position : ℤ
  entry_price : ℚ
  capital : ℚ
  shares : ℚ

/-- Initial state of the first loop: `position = 0`, `entry_price = 0`,
`capital = initial_capital`, `shares = 0`. -/
def initState (initial_capital : ℚ) : BTState :=
  { position := 0, entry_price := 0, capital := initial_capital, shares := 0 }

/-- Body of the first loop of `backtest_ema`: buy when flat on signal 1
(leaving `capital` untouched), sell when long on signal -1, otherwise keep
the state unchanged. -/
def btStep (fee_percent : ℚ) (s : BTState) (sig : ℤ) (close : ℚ) : BTState :=
  if s.position = 0 ∧ sig = 1 then
    let fee := s.capital * fee_percent
    let capital_after_fee := s.capital - fee
    { s with position := 1, entry_price := close, shares := capital_after_fee / close }
  else if s.position = 1 ∧ sig = -1 then
    let sell_value := s.shares * close
    let fee := sell_value * fee_percent
    { s with position := 0, capital := sell_value - fee, shares := 0 }
  else s

/-- Folding the first loop over a list of rows, returning the final state. -/
def btRunSt (fee_percent : ℚ) (s : BTState) : List (ℤ × ℚ) → BTState
  | [] => s
  | r :: rest => btRunSt fee_percent (btStep fee_percent s r.1 r.2) rest

/-- The `position` values recorded by the first loop
(`df["position"].iloc[i] = position` after each iteration). -/
def btRunPos (fee_percent : ℚ) (s : BTState) : List (ℤ × ℚ) → List ℤ
  | [] => []
  | r :: rest =>
    let s' := btStep fee_percent s r.1 r.2
    s'.position :: btRunPos fee_percent s' rest

/-- The `position` column of the returned frame: index 0 keeps the initial
`df["position"] = 0`, the first loop runs over indices `1 .. len-1`. -/
def positionsCol (rows : List (ℤ × ℚ)) (initial_capital fee_percent : ℚ) : List ℤ :=
  match rows with
  | [] => []
  | _ :: rest => 0 :: btRunPos fee_percent (initState initial_capital) rest

/-- State of the first loop after it has walked the whole frame. -/
def firstPassState (rows : List (ℤ × ℚ)) (initial_capital fee_percent : ℚ) : BTState :=
  match rows with
  | [] => initState initial_capital
  | _ :: rest => btRunSt fee_percent (initState initial_capital) rest

/-- `df["close"].iloc[-1]`: the close of the last row (only ever read when a
forced liquidation fires, hence on a non-empty frame; `0` is a dummy). -/
def lastClose (rows : List (ℤ × ℚ)) : ℚ :=
  (rows.getLast?.map Prod.snd).getD 0

/-- The `capital` variable after the first loop and the forced liquidation
(`if position == 1: sell at the last close, applying the fee`). -/
def finalCapital (rows : List (ℤ × ℚ)) (initial_capital fee_percent : ℚ) : ℚ :=
  let s := firstPassState rows initial_capital fee_percent
  if s.position = 1 then
    let sell_value := s.shares * lastClose rows
    let fee := sell_value * fee_percent
    sell_value - fee
  else s.capital

/-- `roi = (capital - initial_capital) / initial_capital * 100.0`. -/
def roiOf (rows : List (ℤ × ℚ)) (initial_capital fee_percent : ℚ) : ℚ :=
  (finalCapital rows initial_capital fee_percent - initial_capital) / initial_capital * 100

/-- State of the second loop of `backtest_ema`: the variables `pos`,
`entry_p`, `cap_temp`, `sh`. -/
structure PVState where
  pos : ℤ
  entry_p : ℚ
  cap_temp : ℚ
  sh : ℚ

/-- Initial state of the second loop. -/
def initPV (initial_capital : ℚ) : PVState :=
  { pos := 0, entry_p := 0, cap_temp := initial_capital, sh := 0 }

/-- Body of the second loop: same transition conditions as the first loop,
but on a buy `cap_temp` is reduced by the fee (`cap_temp -= fee`) before the
share count is computed from it. -/
def pvStep (fee_percent : ℚ) (t : PVState) (sig : ℤ) (close : ℚ) : PVState :=
  if t.pos = 0 ∧ sig = 1 then
    let fee := t.cap_temp * fee_percent
    let cap' := t.cap_temp - fee
    { t with pos := 1, entry_p := close, cap_temp := cap', sh := cap' / close }
  else if t.pos = 1 ∧ sig = -1 then
    let sell_value := t.sh * close
    let fee := sell_value * fee_percent
    { t with pos := 0, cap_temp := sell_value - fee, sh := 0 }
  else t

/-- The per-bar valuation appended by the second loop: `sh * close` while
long, `cap_temp` while flat. -/
def pvValue (t : PVState) (close : ℚ) : ℚ :=
  if t.pos = 1 then t.sh * close else t.cap_temp

/-- Folding the second loop, returning its final state. -/
def pvRunSt (fee_percent : ℚ) (t : PVState) : List (ℤ × ℚ) → PVState
  | [] => t
  | r :: rest => pvRunSt fee_percent (pvStep fee_percent t r.1 r.2) rest

/-- The valuations appended by the second loop for indices `1 .. len-1`. -/
def pvRunVals (fee_percent : ℚ) (t : PVState) : List (ℤ × ℚ) → List ℚ
  | [] => []
  | r :: rest =>
    let t' := pvStep fee_percent t r.1 r.2
    pvValue t' r.2 :: pvRunVals fee_percent t' rest

/-- The `pos` values held by the second loop at each index
(index 0 is skipped by the `continue`, so `pos` is still 0 there). -/
def pvRunPosTrace (fee_percent : ℚ) (t : PVState) : List (ℤ × ℚ) → List ℤ
  | [] => []
  | r :: rest =>
    let t' := pvStep fee_percent t r.1 r.2
    t'.pos :: pvRunPosTrace fee_percent t' rest

/-- The `portfolio_value` column: `initial_capital` at index 0, then the
valuations of the second loop. -/
def portfolioValues (rows : List (ℤ × ℚ)) (initial_capital fee_percent : ℚ) : List ℚ :=
  match rows with
  | [] => []
  | _ :: rest => initial_capital :: pvRunVals fee_percent (initPV initial_capital) rest

/-- The `pos` state of the second loop at every index of the frame. -/
def pvPositions (rows : List (ℤ × ℚ)) (initial_capital fee_percent : ℚ) : List ℤ :=
  match rows with
  | [] => []
  | _ :: rest => 0 :: pvRunPosTrace fee_percent (initPV initial_capital) rest

/-- Embedding of `backtest_ema(df, initial_capital, fee_percent)`: the
`position` column, the `portfolio_value` column and the final ROI. -/
def backtest_ema (rows : List (ℤ × ℚ)) (initial_capital fee_percent : ℚ) :
    List ℤ × List ℚ × ℚ :=
  (positionsCol rows initial_capital fee_percent,
   portfolioValues rows initial_capital fee_percent,
   roiOf rows initial_capital fee_percent)

/-- Variant of `backtest_ema` whose ROI skips the forced liquidation (the
`if position == 1` block), used to state that the liquidation changes no
curve point. -/
def backtest_ema_noliq (rows : List (ℤ × ℚ)) (initial_capital fee_percent : ℚ) :
    List ℤ × List ℚ × ℚ :=
  (positionsCol rows initial_capital fee_percent,
   portfolioValues rows initial_capital fee_percent,
   ((firstPassState rows initial_capital fee_percent).capital - initial_capital) /
     initial_capital * 100)

lemma backtest_ema_sample :
    backtest_ema [(0, 10), (1, 10), (-1, 11)] 1000 0 =
      ([0, 1, 0], [1000, 1000, 1100], 10) := by
  norm_num [backtest_ema, positionsCol, portfolioValues, roiOf, finalCapital,
    firstPassState, btRunSt, btRunPos, btStep, initState, pvRunVals, pvStep,
    pvValue, initPV, lastClose]

lemma btRunPos_length (fee_percent : ℚ) :
    ∀ (s : BTState) (rest : List (ℤ × ℚ)), (btRunPos fee_percent s rest).length = rest.length
  | _, [] => rfl
  | s, r :: rest => by
      simp [btRunPos, btRunPos_length fee_percent _ rest]

lemma pvRunVals_length (fee_percent : ℚ) :
    ∀ (t : PVState) (rest : List (ℤ × ℚ)), (pvRunVals fee_percent t rest).length = rest.length
  | _, [] => rfl
  | t, r :: rest => by
      simp [pvRunVals, pvRunVals_length fee_percent _ rest]

lemma positionsCol_length (rows : List (ℤ × ℚ)) (initial_capital fee_percent : ℚ) :
    (positionsCol rows initial_capital fee_percent).length = rows.length := by
  cases rows <;> simp [positionsCol, btRunPos_length]

lemma portfolioValues_length (rows : List (ℤ × ℚ)) (initial_capital fee_percent : ℚ) :
    (portfolioValues rows initial_capital fee_percent).length = rows.length := by
  cases rows <;> simp [portfolioValues, pvRunVals_length]

/-- C4: the first row of the frame is inert: replacing its signal by any
other value leaves every output of `backtest_ema` unchanged, the `position`
column starts at 0, and the portfolio curve starts at the initial capital. -/
theorem index_zero_never_transitions (initial_capital fee_percent : ℚ) (s0 s0' : ℤ)
    (c0 : ℚ) (rest : List (ℤ × ℚ)) :
    backtest_ema ((s0, c0) :: rest) initial_capital fee_percent =
      backtest_ema ((s0', c0) :: rest) initial_capital fee_percent ∧
    (backtest_ema ((s0, c0) :: rest) initial_capital fee_percent).1.head? = some 0 ∧
    (backtest_ema ((s0, c0) :: rest) initial_capital fee_percent).2.1.head? =
      some initial_capital := by
  refine ⟨?_, rfl, rfl⟩
  cases rest with
  | nil => rfl
  | cons r rest' => rfl

/-- C6 (amended): there is no error channel: a Buy signal at a bar whose
close is 0 makes the simulator enter the position and return a complete
result for any fee and capital, rather than reporting an input error. -/
theorem zero_price_buy_fires (initial_capital fee_percent c0 : ℚ) (rest : List (ℤ × ℚ)) :
    (backtest_ema ((0, c0) :: (1, 0) :: rest) initial_capital fee_percent).1[0]? = some 0 ∧
    (backtest_ema ((0, c0) :: (1, 0) :: rest) initial_capital fee_percent).1[1]? = some 1 ∧
    (backtest_ema ((0, c0) :: (1, 0) :: rest) initial_capital fee_percent).2.1.length =
      ((0, c0) :: (1, 0) :: rest).length := by
  refine ⟨rfl, ?_, ?_⟩
  · simp [backtest_ema, positionsCol, btRunPos, btStep, initState]
  · simpa [backtest_ema] using
      portfolioValues_length ((0, c0) :: (1, 0) :: rest) initial_capital fee_percent

/-- C6 counterexample: on `[(0,10),(1,0)]` the zero-price Buy proceeds (the
position column becomes `[0, 1]`) and a full-length result is returned; no
`InvalidInput` error exists anywhere in the simulator. -/
theorem zero_price_buy_counterexample :
    (backtest_ema [(0, 10), (1, 0)] 1000 0).1 = [0, 1] ∧
    (backtest_ema [(0, 10), (1, 0)] 1000 0).2.1.length = 2 := by
  constructor
  · norm_num [backtest_ema, positionsCol, btRunPos, btStep, initState]
  · simpa [backtest_ema] using portfolioValues_length [(0, 10), (1, 0)] 1000 0

/-- C7 (amended): no fee-rate validation exists: for every fee rate
whatsoever (negative, or ≥ 1) the simulator runs to completion and trades
exactly as for a valid fee. -/
theorem fee_rate_never_rejected (initial_capital fee_percent : ℚ) :
    (backtest_ema [(0, 10), (1, 10), (-1, 10)] initial_capital fee_percent).1 =
      [0, 1, 0] := by
  simp [backtest_ema, positionsCol, btRunPos, btStep, initState]

/-- C7 counterexample: with `fee_percent = 1.2` the simulator is not
rejected: the whole computation proceeds and returns a (nonsensical)
result, with a negative share count bought at index 1 and ROI -96%. -/
theorem fee_above_one_accepted_counterexample :
    backtest_ema [(0, 10), (1, 10), (-1, 10)] 1000 (6 / 5) =
      ([0, 1, 0], [1000, -200, 40], -96) ∧
    (btStep (6 / 5) (initState 1000) 1 10).shares = -20 := by
  constructor
  · norm_num [backtest_ema, positionsCol, portfolioValues, roiOf, finalCapital,
      firstPassState, btRunSt, btRunPos, btStep, initState, pvRunVals, pvStep,
      pvValue, initPV, lastClose]
  · norm_num [btStep, initState]

/-- C3 counterexample: after the Flat→Long transition at index 1 the code's
`capital` variable still holds the full pre-buy cash (1000), not 0: the
claim's "cash becomes 0" is false of the state the loop actually keeps. -/
theorem buy_leaves_capital_counterexample :
    (firstPassState [(0, 10), (1, 10)] 1000 (1 / 1000)).position = 1 ∧
    (firstPassState [(0, 10), (1, 10)] 1000 (1 / 1000)).shares = 999 / 10 ∧
    (firstPassState [(0, 10), (1, 10)] 1000 (1 / 1000)).capital = 1000 ∧
    (firstPassState [(0, 10), (1, 10)] 1000 (1 / 1000)).capital ≠ 0 := by
  norm_num [firstPassState, btRunSt, btStep, initState]

/-- C9 counterexample: while Long the cash balance is not 0: after the buy
at index 1 the state is Long with positive shares but `capital = 500`. -/
theorem long_cash_not_zero_counterexample :
    (firstPassState [(0, 20), (1, 5)] 500 0).position = 1 ∧
    0 < (firstPassState [(0, 20), (1, 5)] 500 0).shares ∧
    (firstPassState [(0, 20), (1, 5)] 500 0).capital ≠ 0 := by
  norm_num [firstPassState, btRunSt, btStep, initState]

/-! ## Relating the two loops of `backtest_ema` -/

/-- Simulation relation between a first-loop state and a second-loop state:
same position, same share count, and the same cash whenever flat (the only
time either loop reads it). -/
def BTPV (s : BTState) (t : PVState) : Prop :=
  s.position = t.pos ∧ s.shares = t.sh ∧ (s.position = 0 → s.capital = t.cap_temp)

lemma BTPV_step (fee_percent : ℚ) (s : BTState) (t : PVState) (sig : ℤ) (close : ℚ)
    (h : BTPV s t) : BTPV (btStep fee_percent s sig close) (pvStep fee_percent t sig close) := by
  obtain ⟨h1, h2, h3⟩ := h
  unfold btStep pvStep
  by_cases hb : s.position = 0 ∧ sig = 1
  · have hb' : t.pos = 0 ∧ sig = 1 := by rw [← h1]; exact hb
    rw [if_pos hb, if_pos hb']
    refine ⟨rfl, ?_, ?_⟩
    · simp [BTPV, h3 hb.1]
    · intro hx; simp at hx
  · have hb' : ¬(t.pos = 0 ∧ sig = 1) := by rw [← h1]; exact hb
    rw [if_neg hb, if_neg hb']
    by_cases hs2 : s.position = 1 ∧ sig = -1
    · have hs2' : t.pos = 1 ∧ sig = -1 := by rw [← h1]; exact hs2
      rw [if_pos hs2, if_pos hs2']
      exact ⟨rfl, rfl, fun _ => by simp [h2]⟩
    · have hs2' : ¬(t.pos = 1 ∧ sig = -1) := by rw [← h1]; exact hs2
      rw [if_neg hs2, if_neg hs2']
      exact ⟨h1, h2, h3⟩

lemma BTPV_runSt (fee_percent : ℚ) :
    ∀ (rest : List (ℤ × ℚ)) (s : BTState) (t : PVState), BTPV s t →
      BTPV (btRunSt fee_percent s rest) (pvRunSt fee_percent t rest)
  | [], _, _, h => h
  | r :: rest, s, t, h =>
      BTPV_runSt fee_percent rest _ _ (BTPV_step fee_percent s t r.1 r.2 h)

lemma BTPV_runPos (fee_percent : ℚ) :
    ∀ (rest : List (ℤ × ℚ)) (s : BTState) (t : PVState), BTPV s t →
      btRunPos fee_percent s rest = pvRunPosTrace fee_percent t rest
  | [], _, _, _ => rfl
  | r :: rest, s, t, h => by
      have h' := BTPV_step fee_percent s t r.1 r.2 h
      simp [btRunPos, pvRunPosTrace, h'.1, BTPV_runPos fee_percent rest _ _ h']

/-- C10: the two walks of `backtest_ema` compute the same position at every
index: the recorded `position` column of the first loop equals the `pos`
state of the second (portfolio-curve) loop throughout. -/
theorem two_passes_same_position (rows : List (ℤ × ℚ)) (initial_capital fee_percent : ℚ) :
    positionsCol rows initial_capital fee_percent =
      pvPositions rows initial_capital fee_percent := by
  cases rows with
  | nil => rfl
  | cons r rest =>
      have h := BTPV_runPos fee_percent rest (initState initial_capital)
        (initPV initial_capital) ⟨rfl, rfl, fun _ => rfl⟩
      simp [positionsCol, pvPositions, h]

/-! ## The state machine exactly as the specification words it -/

/-- SimulationState of the specification: position, cash, shares. -/
structure SpecState where
  pos : ℤ
  cash : ℚ
  shares : ℚ

/-- Initial specification state: Flat, all capital as cash, no shares. -/
def initSpec (initial_capital : ℚ) : SpecState :=
  { pos := 0, cash := initial_capital, shares := 0 }

/-- The transition exactly as the claim words it: Flat→Long debits
`fee = cash*feeRate`, buys `(cash-fee)/close` shares and sets cash to 0;
Long→Flat sells at `shares*close`, debits the fee and zeroes the shares;
anything else is a no-op. -/
def specStep (fee_percent : ℚ) (u : SpecState) (sig : ℤ) (close : ℚ) : SpecState :=
  if u.pos = 0 ∧ sig = 1 then
    let fee := u.cash * fee_percent
    { pos := 1, cash := 0, shares := (u.cash - fee) / close }
  else if u.pos = 1 ∧ sig = -1 then
    let sale := u.shares * close
    let fee := sale * fee_percent
    { pos := 0, cash := sale - fee, shares := 0 }
  else u

def specRunSt (fee_percent : ℚ) (u : SpecState) : List (ℤ × ℚ) → SpecState
  | [] => u
  | r :: rest => specRunSt fee_percent (specStep fee_percent u r.1 r.2) rest

def specRunPosTrace (fee_percent : ℚ) (u : SpecState) : List (ℤ × ℚ) → List ℤ
  | [] => []
  | r :: rest =>
    let u' := specStep fee_percent u r.1 r.2
    u'.pos :: specRunPosTrace fee_percent u' rest

/-- Mark-to-market valuation of a specification state. -/
def specValue (u : SpecState) (close : ℚ) : ℚ :=
  if u.pos = 1 then u.shares * close else u.cash

def specRunVals (fee_percent : ℚ) (u : SpecState) : List (ℤ × ℚ) → List ℚ
  | [] => []
  | r :: rest =>
    let u' := specStep fee_percent u r.1 r.2
    specValue u' r.2 :: specRunVals fee_percent u' rest

/-- The whole backtest as the specification words it: index 0 is inert, the
claimed single state machine drives both the position column and the curve,
and the ROI applies a final forced liquidation when still Long. -/
def spec_backtest (rows : List (ℤ × ℚ)) (initial_capital fee_percent : ℚ) :
    List ℤ × List ℚ × ℚ :=
  match rows with
  | [] => ([], [], (initial_capital - initial_capital) / initial_capital * 100)
  | _ :: rest =>
    let u := specRunSt fee_percent (initSpec initial_capital) rest
    let finalCash :=
      if u.pos = 1 then
        u.shares * lastClose rows - u.shares * lastClose rows * fee_percent
      else u.cash
    (0 :: specRunPosTrace fee_percent (initSpec initial_capital) rest,
     initial_capital :: specRunVals fee_percent (initSpec initial_capital) rest,
     (finalCash - initial_capital) / initial_capital * 100)

/-- Relation between a first-loop state and a specification state. -/
def BTSpec (s : BTState) (u : SpecState) : Prop :=
  (s.position = 0 ∨ s.position = 1) ∧ s.position = u.pos ∧ s.shares = u.shares ∧
    (s.position = 0 → s.capital = u.cash)

lemma BTSpec_step (fee_percent : ℚ) (s : BTState) (u : SpecState) (sig : ℤ) (close : ℚ)
    (h : BTSpec s u) : BTSpec (btStep fee_percent s sig close) (specStep fee_percent u sig close) := by
  obtain ⟨h0, h1, h2, h3⟩ := h
  unfold btStep specStep
  by_cases hb : s.position = 0 ∧ sig = 1
  · have hb' : u.pos = 0 ∧ sig = 1 := by rw [← h1]; exact hb
    rw [if_pos hb, if_pos hb']
    refine ⟨Or.inr rfl, rfl, ?_, ?_⟩
    · simp [h3 hb.1]
    · intro hx; simp at hx
  · have hb' : ¬(u.pos = 0 ∧ sig = 1) := by rw [← h1]; exact hb
    rw [if_neg hb, if_neg hb']
    by_cases hs2 : s.position = 1 ∧ sig = -1
    · have hs2' : u.pos = 1 ∧ sig = -1 := by rw [← h1]; exact hs2
      rw [if_pos hs2, if_pos hs2']
      exact ⟨Or.inl rfl, rfl, rfl, fun _ => by simp [h2]⟩
    · have hs2' : ¬(u.pos = 1 ∧ sig = -1) := by rw [← h1]; exact hs2
      rw [if_neg hs2, if_neg hs2']
      exact ⟨h0, h1, h2, h3⟩

lemma BTSpec_runSt (fee_percent : ℚ) :
    ∀ (rest : List (ℤ × ℚ)) (s : BTState) (u : SpecState), BTSpec s u →
      BTSpec (btRunSt fee_percent s rest) (specRunSt fee_percent u rest)
  | [], _, _, h => h
  | r :: rest, s, u, h =>
      BTSpec_runSt fee_percent rest _ _ (BTSpec_step fee_percent s u r.1 r.2 h)

lemma BTSpec_runPos (fee_percent : ℚ) :
    ∀ (rest : List (ℤ × ℚ)) (s : BTState) (u : SpecState), BTSpec s u →
      btRunPos fee_percent s rest = specRunPosTrace fee_percent u rest
  | [], _, _, _ => rfl
  | r :: rest, s, u, h => by
      have h' := BTSpec_step fee_percent s u r.1 r.2 h
      simp [btRunPos, specRunPosTrace, h'.2.1, BTSpec_runPos fee_percent rest _ _ h']

/-- Relation between a second-loop state and a specification state. -/
def PVSpec (t : PVState) (u : SpecState) : Prop :=
  (t.pos = 0 ∨ t.pos = 1) ∧ t.pos = u.pos ∧ t.sh = u.shares ∧
    (t.pos = 0 → t.cap_temp = u.cash)

lemma PVSpec_step (fee_percent : ℚ) (t : PVState) (u : SpecState) (sig : ℤ) (close : ℚ)
    (h : PVSpec t u) : PVSpec (pvStep fee_percent t sig close) (specStep fee_percent u sig close) := by
  obtain ⟨h0, h1, h2, h3⟩ := h
  unfold pvStep specStep
  by_cases hb : t.pos = 0 ∧ sig = 1
  · have hb' : u.pos = 0 ∧ sig = 1 := by rw [← h1]; exact hb
    rw [if_pos hb, if_pos hb']
    refine ⟨Or.inr rfl, rfl, ?_, ?_⟩
    · simp [h3 hb.1]
    · intro hx; simp at hx
  · have hb' : ¬(u.pos = 0 ∧ sig = 1) := by rw [← h1]; exact hb
    rw [if_neg hb, if_neg hb']
    by_cases hs2 : t.pos = 1 ∧ sig = -1
    · have hs2' : u.pos = 1 ∧ sig = -1 := by rw [← h1]; exact hs2
      rw [if_pos hs2, if_pos hs2']
      exact ⟨Or.inl rfl, rfl, rfl, fun _ => by simp [h2]⟩
    · have hs2' : ¬(u.pos = 1 ∧ sig = -1) := by rw [← h1]; exact hs2
      rw [if_neg hs2, if_neg hs2']
      exact ⟨h0, h1, h2, h3⟩

lemma PVSpec_value (t : PVState) (u : SpecState) (close : ℚ) (h : PVSpec t u) :
    pvValue t close = specValue u close := by
  obtain ⟨h0, h1, h2, h3⟩ := h
  unfold pvValue specValue
  rcases h0 with hp | hp
  · rw [hp] at h1
    rw [hp, ← h1]
    simp [h3 hp]
  · rw [hp] at h1
    rw [hp, ← h1]
    simp [h2]

lemma PVSpec_runVals (fee_percent : ℚ) :
    ∀ (rest : List (ℤ × ℚ)) (t : PVState) (u : SpecState), PVSpec t u →
      pvRunVals fee_percent t rest = specRunVals fee_percent u rest
  | [], _, _, _ => rfl
  | r :: rest, t, u, h => by
      have h' := PVSpec_step fee_percent t u r.1 r.2 h
      simp [pvRunVals, specRunVals, PVSpec_value _ _ r.2 h',
        PVSpec_runVals fee_percent rest _ _ h']

/-- C3 (amended): the simulator's observable outputs coincide with the state
machine worded by the claim (fee debited on entry, `(cash-fee)/close` shares
bought, cash zeroed; sale value minus fee banked on exit; no-ops otherwise):
the only divergence is the code's stale `capital` variable while Long, which
is never read before being overwritten. -/
theorem backtest_matches_claimed_machine (rows : List (ℤ × ℚ)) (initial_capital fee_percent : ℚ) :
    backtest_ema rows initial_capital fee_percent =
      spec_backtest rows initial_capital fee_percent := by
  cases rows with
  | nil => rfl
  | cons r rest =>
      have hbt : BTSpec (initState initial_capital) (initSpec initial_capital) :=
        ⟨Or.inl rfl, rfl, rfl, fun _ => rfl⟩
      have hpv : PVSpec (initPV initial_capital) (initSpec initial_capital) :=
        ⟨Or.inl rfl, rfl, rfl, fun _ => rfl⟩
      have hfin := BTSpec_runSt fee_percent rest (initState initial_capital)
        (initSpec initial_capital) hbt
      refine Prod.ext ?_ (Prod.ext ?_ ?_)
      · simpa [backtest_ema, positionsCol, spec_backtest] using
          BTSpec_runPos fee_percent rest _ _ hbt
      · simpa [backtest_ema, portfolioValues, spec_backtest] using
          PVSpec_runVals fee_percent rest _ _ hpv
      · obtain ⟨g0, g1, g2, g3⟩ := hfin
        simp only [backtest_ema, spec_backtest, roiOf, finalCapital, firstPassState]
        rcases g0 with hp | hp
        · rw [if_neg (by rw [hp]; decide), if_neg (by rw [← g1, hp]; decide), g3 hp]
        · rw [if_pos (by rw [hp]), if_pos (by rw [← g1, hp]), g2]

/-! ## The forced liquidation (C5) -/

lemma getLast?_cons_of_ne_nil {α : Type} (a : α) (l : List α) (h : l ≠ []) :
    (a :: l).getLast? = l.getLast? := by
  cases l with
  | nil => exact absurd rfl h
  | cons b l' => exact List.getLast?_cons_cons

lemma lastClose_cons (r : ℤ × ℚ) (rest : List (ℤ × ℚ)) (h : rest ≠ []) :
    lastClose (r :: rest) = lastClose rest := by
  unfold lastClose
  rw [getLast?_cons_of_ne_nil r rest h]

/-- The last valuation appended by the second loop is the valuation of its
final state at the last close. -/
lemma pvRunVals_getLast (fee_percent : ℚ) :
    ∀ (rest : List (ℤ × ℚ)) (t : PVState), rest ≠ [] →
      (pvRunVals fee_percent t rest).getLast? =
        some (pvValue (pvRunSt fee_percent t rest) (lastClose rest))
  | [], _, h => absurd rfl h
  | [r], t, _ => by simp [pvRunVals, pvRunSt, lastClose]
  | r :: r2 :: rest, t, _ => by
      have hne : pvRunVals fee_percent (pvStep fee_percent t r.1 r.2) (r2 :: rest) ≠ [] := by
        intro hcon
        have hlen := pvRunVals_length fee_percent (pvStep fee_percent t r.1 r.2) (r2 :: rest)
        rw [hcon] at hlen
        simp at hlen
      have ih := pvRunVals_getLast fee_percent (r2 :: rest) (pvStep fee_percent t r.1 r.2)
        (by simp)
      have h1 : pvRunVals fee_percent t (r :: r2 :: rest) =
          pvValue (pvStep fee_percent t r.1 r.2) r.2 ::
            pvRunVals fee_percent (pvStep fee_percent t r.1 r.2) (r2 :: rest) := rfl
      rw [h1, getLast?_cons_of_ne_nil _ _ hne, ih,
        lastClose_cons r (r2 :: rest) (by simp)]
      rfl

/-- C5: if the run ends still Long, the headline ROI prices in a forced
liquidation at the last close with the fee debited, while the last recorded
curve point stays at the fee-free mark-to-market value `shares * lastClose`;
the recorded curve coincides with the curve of a simulator that performs no
liquidation at all. -/
theorem forced_liquidation_roi_only (rows : List (ℤ × ℚ)) (initial_capital fee_percent : ℚ)
    (hpos : (firstPassState rows initial_capital fee_percent).position = 1) :
    (backtest_ema rows initial_capital fee_percent).2.2 =
      ((firstPassState rows initial_capital fee_percent).shares * lastClose rows -
        (firstPassState rows initial_capital fee_percent).shares * lastClose rows *
          fee_percent - initial_capital) / initial_capital * 100 ∧
    (backtest_ema rows initial_capital fee_percent).2.1.getLast? =
      some ((firstPassState rows initial_capital fee_percent).shares * lastClose rows) ∧
    (backtest_ema rows initial_capital fee_percent).2.1 =
      (backtest_ema_noliq rows initial_capital fee_percent).2.1 := by
  refine ⟨?_, ?_, rfl⟩
  · show roiOf rows initial_capital fee_percent = _
    unfold roiOf finalCapital
    rw [if_pos hpos]
  · cases rows with
    | nil => simp [firstPassState, initState] at hpos
    | cons r rest =>
        cases rest with
        | nil => simp [firstPassState, btRunSt, btStep, initState] at hpos
        | cons r2 rest' =>
            obtain ⟨e1, e2, e3⟩ := BTPV_runSt fee_percent (r2 :: rest')
              (initState initial_capital) (initPV initial_capital) ⟨rfl, rfl, fun _ => rfl⟩
            have hpos' : (btRunSt fee_percent (initState initial_capital) (r2 :: rest')).position
                = 1 := hpos
            have hppos : (pvRunSt fee_percent (initPV initial_capital) (r2 :: rest')).pos = 1 := by
              rw [← e1]; exact hpos'
            have hne : pvRunVals fee_percent (initPV initial_capital) (r2 :: rest') ≠ [] := by
              intro hcon
              have hlen := pvRunVals_length fee_percent (initPV initial_capital) (r2 :: rest')
              rw [hcon] at hlen
              simp at hlen
            have hlast := pvRunVals_getLast fee_percent (r2 :: rest')
              (initPV initial_capital) (by simp)
            show (initial_capital ::
              pvRunVals fee_percent (initPV initial_capital) (r2 :: rest')).getLast? = _
            rw [getLast?_cons_of_ne_nil _ _ hne, hlast,
              lastClose_cons r (r2 :: rest') (by simp)]
            unfold pvValue
            rw [if_pos hppos, ← e2]
            rfl

/-- Witness for C5 on the run `[(0,10),(1,10)]` ending Long with fee 0. -/
theorem forced_liquidation_roi_only_witness :
    (firstPassState [(0, 10), (1, 10)] 1000 0).position = 1 ∧
    ((backtest_ema [(0, 10), (1, 10)] 1000 0).2.2 =
      ((firstPassState [(0, 10), (1, 10)] 1000 0).shares * lastClose [(0, 10), (1, 10)] -
        (firstPassState [(0, 10), (1, 10)] 1000 0).shares * lastClose [(0, 10), (1, 10)] *
          0 - 1000) / 1000 * 100 ∧
    (backtest_ema [(0, 10), (1, 10)] 1000 0).2.1.getLast? =
      some ((firstPassState [(0, 10), (1, 10)] 1000 0).shares * lastClose [(0, 10), (1, 10)]) ∧
    (backtest_ema [(0, 10), (1, 10)] 1000 0).2.1 =
      (backtest_ema_noliq [(0, 10), (1, 10)] 1000 0).2.1) := by
  have hpos : (firstPassState [(0, 10), (1, 10)] 1000 0).position = 1 := by
    norm_num [firstPassState, btRunSt, btStep, initState]
  exact ⟨hpos, forced_liquidation_roi_only [(0, 10), (1, 10)] 1000 0 hpos⟩

/-! ## The state-machine invariant (C9) -/

/-- Invariant of the first loop's state (under positive closes, positive
capital and a fee in `[0,1)`): the cash never drains to 0 or below, and the
state is Flat with no shares or Long with a positive share count. -/
def StateInv (s : BTState) : Prop :=
  0 < s.capital ∧ (s.position = 0 ∧ s.shares = 0 ∨ s.position = 1 ∧ 0 < s.shares)

lemma btStep_inv (fee_percent : ℚ) (hf0 : 0 ≤ fee_percent) (hf1 : fee_percent < 1)
    (s : BTState) (sig : ℤ) (close : ℚ) (hc : 0 < close) (h : StateInv s) :
    StateInv (btStep fee_percent s sig close) := by
  obtain ⟨hcap, hdisj⟩ := h
  unfold btStep
  by_cases hb : s.position = 0 ∧ sig = 1
  · rw [if_pos hb]
    refine ⟨hcap, Or.inr ⟨rfl, ?_⟩⟩
    have h1 : 0 < s.capital - s.capital * fee_percent := by nlinarith
    exact div_pos h1 hc
  · rw [if_neg hb]
    by_cases hs2 : s.position = 1 ∧ sig = -1
    · rw [if_pos hs2]
      have hsh : 0 < s.shares := by
        rcases hdisj with ⟨hp, _⟩ | ⟨_, hsp⟩
        · rw [hp] at hs2
          exact absurd hs2.1 (by decide)
        · exact hsp
      refine ⟨?_, Or.inl ⟨rfl, rfl⟩⟩
      show 0 < s.shares * close - s.shares * close * fee_percent
      have h2 : 0 < s.shares * close := mul_pos hsh hc
      nlinarith
    · rw [if_neg hs2]
      exact ⟨hcap, hdisj⟩

lemma btRunSt_inv (fee_percent : ℚ) (hf0 : 0 ≤ fee_percent) (hf1 : fee_percent < 1) :
    ∀ (rest : List (ℤ × ℚ)) (s : BTState), StateInv s → (∀ r ∈ rest, 0 < r.2) →
      StateInv (btRunSt fee_percent s rest)
  | [], _, h, _ => h
  | r :: rest, s, h, hcl =>
      btRunSt_inv fee_percent hf0 hf1 rest _
        (btStep_inv fee_percent hf0 hf1 s r.1 r.2 (hcl r (by simp)) h)
        (fun x hx => hcl x (by simp [hx]))

lemma btStep_change (fee_percent : ℚ) (s : BTState) (sig : ℤ) (close : ℚ)
    (h : (btStep fee_percent s sig close).position ≠ s.position) :
    (s.position = 0 ∧ sig = 1) ∨ (s.position = 1 ∧ sig = -1) := by
  by_cases hb : s.position = 0 ∧ sig = 1
  · exact Or.inl hb
  · by_cases hs2 : s.position = 1 ∧ sig = -1
    · exact Or.inr hs2
    · exfalso
      apply h
      unfold btStep
      rw [if_neg hb, if_neg hs2]

/-- C9 (amended): on every prefix of the run (positive closes, positive
capital, fee in `[0,1)`) the first-loop state is Flat with zero shares or
Long with positive shares, and a step changes the position only on a
Buy-while-Flat or a Sell-while-Long signal.  (The cash variable, however, is
not zeroed while Long; it is stale and unread, see the counterexample.) -/
theorem position_state_machine (rows : List (ℤ × ℚ)) (initial_capital fee_percent : ℚ)
    (hf0 : 0 ≤ fee_percent) (hf1 : fee_percent < 1) (hC : 0 < initial_capital)
    (hcl : ∀ r ∈ rows, 0 < r.2) :
    (∀ n : ℕ,
      (firstPassState (rows.take n) initial_capital fee_percent).position = 0 ∧
        (firstPassState (rows.take n) initial_capital fee_percent).shares = 0 ∨
      (firstPassState (rows.take n) initial_capital fee_percent).position = 1 ∧
        0 < (firstPassState (rows.take n) initial_capital fee_percent).shares) ∧
    (∀ (s : BTState) (sig : ℤ) (close : ℚ),
      (btStep fee_percent s sig close).position ≠ s.position →
      (s.position = 0 ∧ sig = 1) ∨ (s.position = 1 ∧ sig = -1)) := by
  constructor
  · intro n
    rcases hrows : rows.take n with _ | ⟨r, rest⟩
    · exact Or.inl ⟨rfl, rfl⟩
    · have hsub : ∀ x ∈ rest, 0 < x.2 := by
        intro x hx
        refine hcl x (List.take_subset n rows ?_)
        rw [hrows]
        exact List.mem_cons_of_mem r hx
      have hinv := btRunSt_inv fee_percent hf0 hf1 rest (initState initial_capital)
        ⟨hC, Or.inl ⟨rfl, rfl⟩⟩ hsub
      exact hinv.2
  · exact fun s sig close h => btStep_change fee_percent s sig close h

/-- Witness for C9 on `[(0,10),(1,10)]`, fee `1/1000`, capital 1000. -/
theorem position_state_machine_witness :
    (0 : ℚ) ≤ 1 / 1000 ∧ (1 / 1000 : ℚ) < 1 ∧ (0 : ℚ) < 1000 ∧
    (∀ r ∈ [((0 : ℤ), (10 : ℚ)), (1, 10)], 0 < r.2) ∧
    ((∀ n : ℕ,
      (firstPassState ([((0 : ℤ), (10 : ℚ)), (1, 10)].take n) 1000 (1 / 1000)).position = 0 ∧
        (firstPassState ([((0 : ℤ), (10 : ℚ)), (1, 10)].take n) 1000 (1 / 1000)).shares = 0 ∨
      (firstPassState ([((0 : ℤ), (10 : ℚ)), (1, 10)].take n) 1000 (1 / 1000)).position = 1 ∧
        0 < (firstPassState ([((0 : ℤ), (10 : ℚ)), (1, 10)].take n) 1000 (1 / 1000)).shares) ∧
    (∀ (s : BTState) (sig : ℤ) (close : ℚ),
      (btStep (1 / 1000) s sig close).position ≠ s.position →
      (s.position = 0 ∧ sig = 1) ∨ (s.position = 1 ∧ sig = -1))) := by
  have hcl : ∀ r ∈ [((0 : ℤ), (10 : ℚ)), (1, 10)], 0 < r.2 := by
    intro r hr
    simp only [List.mem_cons, List.not_mem_nil, or_false] at hr
    rcases hr with rfl | rfl <;> norm_num
  refine ⟨by norm_num, by norm_num, by norm_num, hcl, ?_⟩
  exact position_state_machine [((0 : ℤ), (10 : ℚ)), (1, 10)] 1000 (1 / 1000)
    (by norm_num) (by norm_num) (by norm_num) hcl

/-! ## Fee monotonicity (C8) -/

/-- Relation between the states of the same run under a lower fee `f1` and a
higher fee `f2`: identical position, and both cash and shares of the
higher-fee run are squeezed between 0 and the lower-fee run's. -/
def FeeRel (s1 s2 : BTState) : Prop :=
  s1.position = s2.position ∧ 0 ≤ s2.capital ∧ s2.capital ≤ s1.capital ∧
    0 ≤ s2.shares ∧ s2.shares ≤ s1.shares

lemma FeeRel_step (f1 f2 : ℚ) (hf0 : 0 ≤ f1) (hf12 : f1 ≤ f2) (hf2 : f2 < 1)
    (s1 s2 : BTState) (sig : ℤ) (close : ℚ) (hc : 0 < close) (h : FeeRel s1 s2) :
    FeeRel (btStep f1 s1 sig close) (btStep f2 s2 sig close) := by
  obtain ⟨h1, hc0, hcle, hs0, hsle⟩ := h
  unfold btStep
  by_cases hb : s1.position = 0 ∧ sig = 1
  · have hb' : s2.position = 0 ∧ sig = 1 := by rw [← h1]; exact hb
    rw [if_pos hb, if_pos hb']
    refine ⟨rfl, hc0, hcle, ?_, ?_⟩
    · show (0 : ℚ) ≤ (s2.capital - s2.capital * f2) / close
      apply div_nonneg _ hc.le
      nlinarith
    · show (s2.capital - s2.capital * f2) / close ≤ (s1.capital - s1.capital * f1) / close
      refine (div_le_div_iff_of_pos_right hc).mpr ?_
      nlinarith
  · have hb' : ¬(s2.position = 0 ∧ sig = 1) := by rw [← h1]; exact hb
    rw [if_neg hb, if_neg hb']
    by_cases hs2 : s1.position = 1 ∧ sig = -1
    · have hs2' : s2.position = 1 ∧ sig = -1 := by rw [← h1]; exact hs2
      rw [if_pos hs2, if_pos hs2']
      have ha : s2.shares * close ≤ s1.shares * close :=
        mul_le_mul_of_nonneg_right hsle hc.le
      have ha0 : 0 ≤ s2.shares * close := mul_nonneg hs0 hc.le
      refine ⟨rfl, ?_, ?_, le_refl 0, le_refl 0⟩
      · show (0 : ℚ) ≤ s2.shares * close - s2.shares * close * f2
        nlinarith
      · show s2.shares * close - s2.shares * close * f2 ≤
          s1.shares * close - s1.shares * close * f1
        nlinarith
    · have hs2' : ¬(s2.position = 1 ∧ sig = -1) := by rw [← h1]; exact hs2
      rw [if_neg hs2, if_neg hs2']
      exact ⟨h1, hc0, hcle, hs0, hsle⟩

lemma FeeRel_runSt (f1 f2 : ℚ) (hf0 : 0 ≤ f1) (hf12 : f1 ≤ f2) (hf2 : f2 < 1) :
    ∀ (rest : List (ℤ × ℚ)) (s1 s2 : BTState), FeeRel s1 s2 → (∀ r ∈ rest, 0 < r.2) →
      FeeRel (btRunSt f1 s1 rest) (btRunSt f2 s2 rest)
  | [], _, _, h, _ => h
  | r :: rest, s1, s2, h, hcl =>
      FeeRel_runSt f1 f2 hf0 hf12 hf2 rest _ _
        (FeeRel_step f1 f2 hf0 hf12 hf2 s1 s2 r.1 r.2 (hcl r (by simp)) h)
        (fun x hx => hcl x (by simp [hx]))

lemma lastClose_pos (rows : List (ℤ × ℚ)) (h : rows ≠ []) (hcl : ∀ r ∈ rows, 0 < r.2) :
    0 < lastClose rows := by
  unfold lastClose
  rw [List.getLast?_eq_getLast rows h]
  exact hcl _ (List.getLast_mem h)

/-- C8: for a fixed series of signals and (positive) close prices and a
fixed positive initial capital, the ROI returned by `backtest_ema` is
non-increasing in the fee rate over `[0, 1)`. -/
theorem fee_monotonicity (rows : List (ℤ × ℚ)) (initial_capital f1 f2 : ℚ)
    (hC : 0 < initial_capital) (hf0 : 0 ≤ f1) (hf12 : f1 ≤ f2) (hf2 : f2 < 1)
    (hcl : ∀ r ∈ rows, 0 < r.2) :
    (backtest_ema rows initial_capital f2).2.2 ≤
      (backtest_ema rows initial_capital f1).2.2 := by
  have hkey : finalCapital rows initial_capital f2 ≤ finalCapital rows initial_capital f1 := by
    cases rows with
    | nil =>
        unfold finalCapital firstPassState initState
        norm_num
    | cons r rest =>
        have hsub : ∀ x ∈ rest, 0 < x.2 := fun x hx => hcl x (List.mem_cons_of_mem r hx)
        obtain ⟨g1, gc0, gcle, gs0, gsle⟩ :=
          FeeRel_runSt f1 f2 hf0 hf12 hf2 rest (initState initial_capital)
            (initState initial_capital)
            ⟨rfl, le_of_lt hC, le_refl _, le_refl _, le_refl _⟩ hsub
        unfold finalCapital firstPassState
        by_cases hp : (btRunSt f1 (initState initial_capital) rest).position = 1
        · rw [if_pos hp, if_pos (by rw [← g1]; exact hp)]
          have hlc : 0 < lastClose (r :: rest) := lastClose_pos _ (by simp) hcl
          have ha : (btRunSt f2 (initState initial_capital) rest).shares *
              lastClose (r :: rest) ≤
              (btRunSt f1 (initState initial_capital) rest).shares *
              lastClose (r :: rest) :=
            mul_le_mul_of_nonneg_right gsle hlc.le
          have ha0 : 0 ≤ (btRunSt f2 (initState initial_capital) rest).shares *
              lastClose (r :: rest) := mul_nonneg gs0 hlc.le
          show _ - _ * f2 ≤ _ - _ * f1
          nlinarith
        · rw [if_neg hp, if_neg (by rw [← g1]; exact hp)]
          exact gcle
  show roiOf rows initial_capital f2 ≤ roiOf rows initial_capital f1
  unfold roiOf
  exact mul_le_mul_of_nonneg_right
    ((div_le_div_iff_of_pos_right hC).mpr (sub_le_sub_right hkey _)) (by norm_num)

/-- Witness for C8: fee 1/100 versus fee 0 on a buy-then-sell run. -/
theorem fee_monotonicity_witness :
    (0 : ℚ) < 1000 ∧ (0 : ℚ) ≤ 0 ∧ (0 : ℚ) ≤ 1 / 100 ∧ (1 / 100 : ℚ) < 1 ∧
    (∀ r ∈ [((0 : ℤ), (10 : ℚ)), (1, 10), (-1, 11)], 0 < r.2) ∧
    (backtest_ema [((0 : ℤ), (10 : ℚ)), (1, 10), (-1, 11)] 1000 (1 / 100)).2.2 ≤
      (backtest_ema [((0 : ℤ), (10 : ℚ)), (1, 10), (-1, 11)] 1000 0).2.2 := by
  have hcl : ∀ r ∈ [((0 : ℤ), (10 : ℚ)), (1, 10), (-1, 11)], 0 < r.2 := by
    intro r hr
    simp only [List.mem_cons, List.not_mem_nil, or_false] at hr
    rcases hr with rfl | rfl | rfl <;> norm_num
  refine ⟨by norm_num, le_refl 0, by norm_num, by norm_num, hcl, ?_⟩
  exact fee_monotonicity [((0 : ℤ), (10 : ℚ)), (1, 10), (-1, 11)] 1000 0 (1 / 100)
    (by norm_num) (le_refl 0) (by norm_num) (by norm_num) hcl

end BotTrade
